import Mathlib

/-!
# FisheyeVideoProcess: the correction parameter descriptor and the remap table

A shallow embedding of `src/FisheyeVideoProcess/CorrectingUtil.h`:

* `CorrectingParams` with `operator ==` and `hashcode`;
* `ReMapping` with `clear`, `isMapped`, `get`, `set`, `reMap`, `getPersistFilename`,
  `load` and `persist`, over a character-level model of the persisted file
  (`fprintf "%d %d %d %d "` / `fscanf "%d%d%d%d"`).

`int` is modelled as `Int` with explicit wrap-around to 32 bits where the source
does arithmetic.  `double` is kept abstract: the two floating-point primitives
the header uses are the fields of `DoubleOps`.
-/

namespace Fisheye

/-! ## 32-bit integers -/

/-- Reduction of an integer to the `int` range `[-2^31, 2^31)` (two's complement). -/
def wrap32 (z : Int) : Int := (z + 2147483648) % 4294967296 - 2147483648

/-- Reduction of an integer to the `unsigned int` range `[0, 2^32)`. -/
def toU32 (z : Int) : Int := z % 4294967296

/-- Membership in the `int` range. -/
def isInt32 (z : Int) : Prop := -2147483648 ≤ z ∧ z ≤ 2147483647

instance (z : Int) : Decidable (isInt32 z) := by
  unfold isInt32; exact inferInstance

/-! ## CorrectingType, DistanceMappingType, points -/

/-- The enumeration `CorrectingType`, in declaration order. -/
inductive CorrectingType where
  | BASIC_FORWARD
  | BASIC_REVERSED
  | LONG_LAT_MAPPING_FORWARD
  | LONG_LAT_MAPPING_REVERSED
  | PERSPECTIVE_LONG_LAT_MAPPING_CAM_LENS_MOD_FORWARD
  | PERSPECTIVE_LONG_LAT_MAPPING_CAM_LENS_MOD_REVERSED
  | LONG_LAT_MAPPING_CAM_LENS_MOD_UNFIXED_FORWARD
  | LONG_LAT_MAPPING_CAM_LENS_MOD_UNFIXED_REVERSED
  | OPENCV
  deriving DecidableEq, Repr

/-- The integer value of an enumerator of `CorrectingType` (0 to 8). -/
def CorrectingType.toInt : CorrectingType → Int
  | .BASIC_FORWARD => 0
  | .BASIC_REVERSED => 1
  | .LONG_LAT_MAPPING_FORWARD => 2
  | .LONG_LAT_MAPPING_REVERSED => 3
  | .PERSPECTIVE_LONG_LAT_MAPPING_CAM_LENS_MOD_FORWARD => 4
  | .PERSPECTIVE_LONG_LAT_MAPPING_CAM_LENS_MOD_REVERSED => 5
  | .LONG_LAT_MAPPING_CAM_LENS_MOD_UNFIXED_FORWARD => 6
  | .LONG_LAT_MAPPING_CAM_LENS_MOD_UNFIXED_REVERSED => 7
  | .OPENCV => 8

/-- The enumeration `DistanceMappingType`. -/
inductive DistanceMappingType where
  | LONG_LAT
  | PERSPECTIVE
  deriving DecidableEq, Repr

/-- The integer value of an enumerator of `DistanceMappingType`. -/
def DistanceMappingType.toInt : DistanceMappingType → Int
  | .LONG_LAT => 0
  | .PERSPECTIVE => 1

/-- The type `Point2i`: a pair of `int`. -/
structure Point2i where
  x : Int
  y : Int
  deriving DecidableEq, Repr

/-- The type `Point2d`: a pair of `double`, over an abstract carrier `D` of doubles. -/
structure Point2d (D : Type) where
  x : D
  y : D

/-- The floating-point primitives used by `CorrectingParams`, over a carrier `D` of
`double` values: `eq` is `operator ==` on `double`, `scaled x` is the expression
`(int)round(x*10000)`.  `scaled_of_eq` records that two doubles that compare equal
give the same scaled integer (they are the same number, up to the sign of zero). -/
structure DoubleOps (D : Type) where
  eq : D → D → Bool
  scaled : D → Int
  scaled_of_eq : ∀ x y, eq x y = true → scaled x = scaled y

/-- The comparison `operator ==` of `Point2d`: componentwise `==`. -/
def Point2d.eq {D : Type} (F : DoubleOps D) (a b : Point2d D) : Bool :=
  F.eq a.x b.x && F.eq a.y b.y

/-- An exact-arithmetic instance of `DoubleOps`: doubles idealised as rationals,
`round` rounding half away from zero. -/
def exactOps : DoubleOps ℚ where
  eq := fun x y => decide (x = y)
  scaled := fun x =>
    if 0 ≤ x then Int.floor (x * 10000 + 1 / 2) else - Int.floor (- x * 10000 + 1 / 2)
  scaled_of_eq := by
    intro x y h
    have hxy : x = y := of_decide_eq_true h
    rw [hxy]

/-! ## CorrectingParams -/

/-- The struct `CorrectingParams`. -/
structure CorrectingParams (D : Type) where
  ctype : CorrectingType
  centerOfCircle : Point2i
  radiusOfCircle : Int
  dmType : DistanceMappingType
  w : Point2d D
  use_reMap : Bool

/-- The constructor `CorrectingParams()` with all its default arguments; `w0` is the
default-constructed `Point2d` left in `w`. -/
def CorrectingParams.default {D : Type} (w0 : Point2d D) : CorrectingParams D :=
  { ctype := .BASIC_REVERSED
    centerOfCircle := ⟨0, 0⟩
    radiusOfCircle := 0
    dmType := .LONG_LAT
    w := w0
    use_reMap := true }

/-- The test `ctype == LONG_LAT_MAPPING_CAM_LENS_MOD_UNFIXED_FORWARD ||
ctype == LONG_LAT_MAPPING_CAM_LENS_MOD_UNFIXED_REVERSED`. -/
def isUnfixed (c : CorrectingType) : Bool :=
  decide (c = .LONG_LAT_MAPPING_CAM_LENS_MOD_UNFIXED_FORWARD) ||
    decide (c = .LONG_LAT_MAPPING_CAM_LENS_MOD_UNFIXED_REVERSED)

/-- The member `CorrectingParams::operator ==`, clause by clause. -/
def CorrectingParams.operatorEq {D : Type} (F : DoubleOps D) (a obj : CorrectingParams D) :
    Bool :=
  decide (a.ctype = obj.ctype) && decide (a.centerOfCircle = obj.centerOfCircle)
    && decide (a.radiusOfCircle = obj.radiusOfCircle)
    && decide (a.dmType = obj.dmType)
    && decide (a.use_reMap = obj.use_reMap)
    && (isUnfixed a.ctype && Point2d.eq F a.w obj.w)

/-- The expression `0x9e3779b9+(f<<6)+(f>>2)` of `hashcode`: the literal is an
`unsigned int`, so the sum is taken modulo `2^32`; `>>` on `int` is the arithmetic
shift. -/
def mix (f : Int) : Int := toU32 (2654435769 + f * 64 + Int.shiftRight f 2)

/-- The compound assignment `ret += u` on an `int` variable `ret`. -/
def addAssign (ret u : Int) : Int := wrap32 (ret + u)

/-- The member `CorrectingParams::hashcode`, statement by statement.  The line
`ret += ret += ...;` first adds the term to `ret` and then adds `ret` to itself. -/
def CorrectingParams.hashcode {D : Type} (F : DoubleOps D) (p : CorrectingParams D) : Int :=
  let ret := p.ctype.toInt
  let ret := addAssign ret (mix p.centerOfCircle.x)
  let ret := addAssign ret (mix p.centerOfCircle.y)
  let ret := addAssign ret (mix p.radiusOfCircle)
  let ret := addAssign ret (mix p.dmType.toInt)
  if p.ctype = .LONG_LAT_MAPPING_CAM_LENS_MOD_UNFIXED_FORWARD then
    let ret := addAssign ret (mix (F.scaled p.w.x))
    let ret := addAssign ret ret
    let ret := addAssign ret (mix (F.scaled p.w.y))
    ret
  else
    ret

/-- The closed form the hash is documented to have: `ctype` plus one `mix` term for
each of `centerOfCircle.x`, `centerOfCircle.y`, `radiusOfCircle`, `dmType`, and, for
the unfixed-forward variant only, one term for each scaled component of `w`. -/
def hashClosedForm {D : Type} (F : DoubleOps D) (p : CorrectingParams D) : Int :=
  wrap32 (p.ctype.toInt + mix p.centerOfCircle.x + mix p.centerOfCircle.y
    + mix p.radiusOfCircle + mix p.dmType.toInt
    + (if p.ctype = .LONG_LAT_MAPPING_CAM_LENS_MOD_UNFIXED_FORWARD then
        mix (F.scaled p.w.x) + mix (F.scaled p.w.y) else 0))

/-- The identity contract of the descriptor as the specification words it: all of
`ctype`, `centerOfCircle`, `radiusOfCircle`, `dmType`, `use_reMap` equal and, only
when `ctype` is one of the two unfixed variants, `w` equal as well. -/
def intendedEq {D : Type} (F : DoubleOps D) (a b : CorrectingParams D) : Bool :=
  decide (a.ctype = b.ctype) && decide (a.centerOfCircle = b.centerOfCircle)
    && decide (a.radiusOfCircle = b.radiusOfCircle)
    && decide (a.dmType = b.dmType)
    && decide (a.use_reMap = b.use_reMap)
    && (!(isUnfixed a.ctype) || Point2d.eq F a.w b.w)

/-! ## ReMapping: the table -/

/-- The type `std::pair<int,int>`: a pixel position (row, column). -/
abbrev Coord := Int × Int

/-- The entries of the `std::unordered_map` of `ReMapping`, listed in the order in
which `begin()` to `end()` visits them.  Each entry is (key, value) = (dst, src). -/
abbrev Table := List (Coord × Coord)

/-- The keys of a table, in iteration order. -/
def Table.keys (t : Table) : List Coord := t.map Prod.fst

/-- Look-up of a key (`find`): the value stored for it, if any. -/
def Table.find : Table → Coord → Option Coord
  | [], _ => none
  | (k, v) :: rest, key => if k = key then some v else Table.find rest key

/-- The assignment `map[k] = v`: overwrite the value of an existing key, or insert a
new entry (placed last here; every statement below holds for all iteration orders). -/
def Table.assign : Table → Coord → Coord → Table
  | [], key, val => [(key, val)]
  | (k, v) :: rest, key, val =>
    if k = key then (k, val) :: rest else (k, v) :: Table.assign rest key val

/-- The struct `ReMapping`: the flag `bMapped` and the member `map`. -/
structure ReMapping where
  bMapped : Bool
  map : Table
  deriving DecidableEq, Repr

/-- The member `clear`: `map.clear(); bMapped = false;`. -/
def ReMapping.clear (_m : ReMapping) : ReMapping := { bMapped := false, map := [] }

/-- The constructor `ReMapping()`, which calls `clear()`. -/
def ReMapping.new : ReMapping := ReMapping.clear { bMapped := false, map := [] }

/-- The member `isMapped`: `bMapped && !(map.size() == 0)`. -/
def ReMapping.isMapped (m : ReMapping) : Bool := m.bMapped && !(m.map.length == 0)

/-- The member `get`: `return map[dstPos];`.  `operator[]` on an absent key inserts a
value-initialised entry `(0,0)`, so the table after the call is returned as well. -/
def ReMapping.get (m : ReMapping) (dstPos : Coord) : Coord × ReMapping :=
  match m.map.find dstPos with
  | some v => (v, m)
  | none => ((0, 0), { m with map := m.map.assign dstPos (0, 0) })

/-- The member `set`: `bMapped = true; map[dstPos] = srcPos;`. -/
def ReMapping.set (m : ReMapping) (srcPos dstPos : Coord) : ReMapping :=
  { bMapped := true, map := m.map.assign dstPos srcPos }

/-! ## Images and `reMap` -/

/-- The type `Vec3b`: three 8-bit channels. -/
structure Vec3b where
  c0 : Nat
  c1 : Nat
  c2 : Nat
  deriving DecidableEq, Repr

/-- The part of `cv::Mat` that `reMap` uses: a `rows` by `cols` grid of `Vec3b`, stored
row after row in `data`. -/
structure Mat where
  rows : Nat
  cols : Nat
  data : List Vec3b
  deriving DecidableEq, Repr

/-- The buffer of an image holds exactly `rows * cols` pixels. -/
def Mat.WellFormed (m : Mat) : Prop := m.data.length = m.rows * m.cols

/-- Whether the position `(i, j)` lies inside the image. -/
def Mat.inside (m : Mat) (i j : Int) : Bool :=
  decide (0 ≤ i) && decide (i < m.rows) && decide (0 ≤ j) && decide (j < m.cols)

/-- The offset of the pixel `(i, j)` in `data`. -/
def Mat.index (m : Mat) (i j : Int) : Nat := i.toNat * m.cols + j.toNat

/-- The read `m.at<Vec3b>(i, j)`; `none` stands for an access outside the image, which
`cv::Mat::at` leaves undefined. -/
def Mat.at (m : Mat) (i j : Int) : Option Vec3b :=
  if m.inside i j then m.data[m.index i j]? else none

/-- The write `m.at<Vec3b>(i, j) = v`; `none` stands for an access outside the image. -/
def Mat.setAt (m : Mat) (i j : Int) (v : Vec3b) : Option Mat :=
  if m.inside i j && decide (m.index i j < m.data.length) then
    some { m with data := m.data.set (m.index i j) v }
  else none

/-- The `for` loop of `reMap` over the remaining entries of the table. -/
def reMapLoop : Table → Mat → Mat → Option Mat
  | [], _, dstImage => some dstImage
  | ((i_dst, j_dst), (i, j)) :: rest, srcImage, dstImage =>
    match srcImage.at i j with
    | none => none
    | some px =>
      match dstImage.setAt i_dst j_dst px with
      | none => none
      | some dstImage1 => reMapLoop rest srcImage dstImage1

/-- The member `reMap`: the returned `bool`, the destination image and the table after
the call; `none` when a pixel access falls outside an image. -/
def ReMapping.reMap (m : ReMapping) (srcImage dstImage : Mat) :
    Option (Bool × Mat × ReMapping) :=
  if !m.isMapped then some (false, dstImage, m)
  else
    match reMapLoop m.map srcImage dstImage with
    | none => none
    | some dstImage1 => some (true, dstImage1, m)

/-! ## The persisted file: names, `fprintf` and `fscanf` -/

/-- The contents of a text file: its characters from the read position to the end. -/
abbrev FileData := List Char

/-- The file system as `fopen` sees it: `files name` is the content of the file when
`fopen(name, "r")` succeeds and `none` when it returns `NULL`; `writable name` tells
whether `fopen(name, "w+")` succeeds. -/
structure FileSystem where
  files : String → Option FileData
  writable : String → Bool

/-- The character of a decimal digit `d < 10`. -/
def decDigit (d : Nat) : Char := Char.ofNat (48 + d)

/-- The character of a lowercase hexadecimal digit `d < 16`. -/
def hexDigit (d : Nat) : Char := if d < 10 then Char.ofNat (48 + d) else Char.ofNat (87 + d)

/-- Decimal digits of a natural number, most significant first (`fuel` bounds the
number of digits after the first). -/
def printNatAux : Nat → Nat → List Char
  | 0, n => [decDigit (n % 10)]
  | fuel + 1, n =>
    if n < 10 then [decDigit n] else printNatAux fuel (n / 10) ++ [decDigit (n % 10)]

/-- Decimal representation of a natural number, without leading zeros. -/
def printNat (n : Nat) : List Char := printNatAux n n

/-- The output of the conversion `%d` of `fprintf` for an `int`. -/
def printInt (z : Int) : List Char :=
  if z < 0 then '-' :: printNat (-z).toNat else printNat z.toNat

/-- Hexadecimal digits of a natural number, most significant first. -/
def printHexAux : Nat → Nat → List Char
  | 0, n => [hexDigit (n % 16)]
  | fuel + 1, n =>
    if n < 16 then [hexDigit n] else printHexAux fuel (n / 16) ++ [hexDigit (n % 16)]

/-- The output of the conversion `%x` of `sprintf` for an `int`, which is printed as
the `unsigned int` with the same bits. -/
def printHex (z : Int) : List Char := printHexAux 8 (toU32 z).toNat

/-- The member `getPersistFilename`: `TEMP_PATH + "REMAP" + hex(cpHash) + ".dat"`.
`TEMP_PATH` comes from `Config.h` and is a parameter here. -/
def getPersistFilename (TEMP_PATH : String) (cpHash : Int) : String :=
  TEMP_PATH ++ "REMAP" ++ String.mk (printHex cpHash) ++ ".dat"

/-- The output of one call `fprintf(fpDst, "%d %d %d %d ", ...)` for a table entry:
key first, key second, value first, value second, each followed by a space. -/
def printRecord (e : Coord × Coord) : List Char :=
  printInt e.1.1 ++ ' ' :: (printInt e.1.2 ++ ' ' :: (printInt e.2.1 ++ ' ' ::
    (printInt e.2.2 ++ [' '])))

/-- The text written by the `for` loop of `persist` over the entries of the table. -/
def persistText : Table → FileData
  | [] => []
  | e :: rest => printRecord e ++ persistText rest

/-- The predicate `isspace` of the C locale. -/
def isSpace (c : Char) : Bool :=
  c.toNat = 32 || (decide (9 ≤ c.toNat) && decide (c.toNat ≤ 13))

/-- The test for a decimal digit. -/
def isDigit (c : Char) : Bool := decide (48 ≤ c.toNat) && decide (c.toNat ≤ 57)

/-- Skipping of leading white space, as every `%d` directive does first. -/
def skipSpaces : FileData → FileData
  | [] => []
  | c :: cs => if isSpace c then skipSpaces cs else c :: cs

/-- Reading of the longest run of decimal digits, accumulating its value. -/
def scanDigits : FileData → Nat → Nat × FileData
  | [], acc => (acc, [])
  | c :: cs, acc =>
    if isDigit c then scanDigits cs (acc * 10 + (c.toNat - 48)) else (acc, c :: cs)

/-- The outcome of one `%d` directive of `fscanf`. -/
inductive ScanItem where
  /-- End of file reached before any character of the item: an input failure. -/
  | inputFailure
  /-- The next characters are not a decimal integer: a matching failure, the stream is
  left at `rest`. -/
  | matchFailure (rest : FileData)
  /-- An integer was converted, the stream is left at `rest`. -/
  | value (v : Int) (rest : FileData)

/-- The digits of a `%d` item after its optional sign. -/
def scanNumber (neg : Bool) (body : FileData) : ScanItem :=
  match body with
  | [] => .matchFailure []
  | d :: ds =>
    if isDigit d then
      let r := scanDigits (d :: ds) 0
      .value (wrap32 (if neg then - (r.1 : Int) else (r.1 : Int))) r.2
    else .matchFailure (d :: ds)

/-- One `%d` directive of `fscanf`: white space is skipped, then an optional sign and
a non-empty run of digits are read.  The value is stored in an `int`; an out-of-range
literal is reduced to 32 bits. -/
def scanInt (s : FileData) : ScanItem :=
  match skipSpaces s with
  | [] => .inputFailure
  | c :: cs =>
    if c = '-' then scanNumber true cs
    else if c = '+' then scanNumber false cs
    else scanNumber false (c :: cs)

/-- The local variables `int a,b,c,d;` of `load`. -/
structure Locals where
  a : Int
  b : Int
  c : Int
  d : Int
  deriving DecidableEq, Repr

/-- The value of the macro `EOF`. -/
def EOF : Int := -1

/-- The call `fscanf(fpSrc, "%d%d%d%d", &a, &b, &c, &d)`: the returned `int`, the
variables after the call and the stream after the call.  The return value is `EOF`
when an input failure occurs before the first conversion, and the number of assigned
items otherwise; items that were not assigned keep their previous value. -/
def fscanf4 (s : FileData) (v : Locals) : Int × Locals × FileData :=
  match scanInt s with
  | .inputFailure => (EOF, v, [])
  | .matchFailure r => (0, v, r)
  | .value a s1 =>
    let v1 := { v with a := a }
    match scanInt s1 with
    | .inputFailure => (1, v1, [])
    | .matchFailure r => (1, v1, r)
    | .value b s2 =>
      let v2 := { v1 with b := b }
      match scanInt s2 with
      | .inputFailure => (2, v2, [])
      | .matchFailure r => (2, v2, r)
      | .value c s3 =>
        let v3 := { v2 with c := c }
        match scanInt s3 with
        | .inputFailure => (3, v3, [])
        | .matchFailure r => (3, v3, r)
        | .value d s4 => (4, { v3 with d := d }, s4)

/-- The loop `while (fscanf(...) != EOF) { map[make_pair(a,b)] = make_pair(c,d); }`
of `load`, run for at most `fuel` calls of `fscanf`; `none` when the loop is still
running after `fuel` calls. -/
def loadLoop : Nat → FileData → Locals → Table → Option Table
  | 0, _, _, _ => none
  | fuel + 1, s, v, t =>
    match fscanf4 s v with
    | (r, v1, s1) =>
      if r = EOF then some t
      else loadLoop fuel s1 v1 (t.assign (v1.a, v1.b) (v1.c, v1.d))

/-- The member `load`: the returned `bool` and the table after the call.  `init` holds
the indeterminate initial values of the uninitialised locals `a,b,c,d`; `fuel` bounds
the number of `fscanf` calls and the result is `none` when the loop does not end
within that bound. -/
def ReMapping.load (TEMP_PATH : String) (fs : FileSystem) (fuel : Nat) (init : Locals)
    (m : ReMapping) (cpHash : Int) : Option (Bool × ReMapping) :=
  if m.isMapped then some (true, m)
  else
    match fs.files (getPersistFilename TEMP_PATH cpHash) with
    | none => some (false, m)
    | some content =>
      match loadLoop fuel content init [] with
      | none => none
      | some t => some (true, { bMapped := true, map := t })

/-- The member `persist`: the file system after the call; `none` when
`assert(isMapped())` fails.  When `fopen` fails nothing is written. -/
def ReMapping.persist (TEMP_PATH : String) (fs : FileSystem) (m : ReMapping)
    (cpHash : Int) : Option FileSystem :=
  if !m.isMapped then none
  else if !fs.writable (getPersistFilename TEMP_PATH cpHash) then some fs
  else
    some { fs with
      files := fun name =>
        if name = getPersistFilename TEMP_PATH cpHash then some (persistText m.map)
        else fs.files name }

/-- A file system with no readable file, where every file can be created. -/
def emptyFS : FileSystem := { files := fun _ => none, writable := fun _ => true }

/-! ## Auxiliary notions used in the statements -/

/-- The value of a run of decimal digits read left to right from `acc`. -/
def digitsValue (ds : List Char) (acc : Nat) : Nat :=
  ds.foldl (fun a c => a * 10 + (c.toNat - 48)) acc

/-- Every coordinate stored in the table is an `int`. -/
def Table.InRange (t : Table) : Prop :=
  ∀ e ∈ t, isInt32 e.1.1 ∧ isInt32 e.1.2 ∧ isInt32 e.2.1 ∧ isInt32 e.2.2

instance (t : Table) : Decidable t.InRange := by
  unfold Table.InRange; exact inferInstance

/-- The table after the assignments `map[key] = value` for the entries of `t`, in
order, starting from `acc`. -/
def assignAll (acc : Table) (t : Table) : Table :=
  t.foldl (fun a e => a.assign e.1 e.2) acc

/-! ## Example inputs -/

/-- A descriptor of the basic reversed variant with `w = (0, 0)`. -/
def paramsBasic : CorrectingParams ℚ := CorrectingParams.default ⟨0, 0⟩

/-- The same descriptor as `paramsBasic` with another `w` and with `use_reMap` kept. -/
def paramsBasicOtherW : CorrectingParams ℚ := { paramsBasic with w := ⟨1, 2⟩ }

/-- A descriptor of the unfixed forward variant with `w = (0, 0)`. -/
def paramsUnfixedForward : CorrectingParams ℚ :=
  { paramsBasic with ctype := .LONG_LAT_MAPPING_CAM_LENS_MOD_UNFIXED_FORWARD }

/-- A usable table with two entries. -/
def tableTwo : ReMapping :=
  { bMapped := true, map := [((0, 0), (1, 1)), ((0, 1), (1, 0))] }

/-- A usable table with two entries that use negative and extreme `int` coordinates. -/
def tableNeg : ReMapping :=
  { bMapped := true, map := [((-1, 2), (-2147483648, 2147483647)), ((0, -7), (10, 0))] }

/-- A 2 by 2 source image with four different pixels. -/
def imgSrc : Mat :=
  { rows := 2, cols := 2, data := [⟨1, 1, 1⟩, ⟨2, 2, 2⟩, ⟨3, 3, 3⟩, ⟨4, 4, 4⟩] }

/-- A 2 by 2 black destination image. -/
def imgDst : Mat :=
  { rows := 2, cols := 2, data := [⟨0, 0, 0⟩, ⟨0, 0, 0⟩, ⟨0, 0, 0⟩, ⟨0, 0, 0⟩] }

/-- A file system whose only file is the one `load` opens for the hash `7` under the
directory `tmp/`, with the given content. -/
def fsWith (content : FileData) : FileSystem :=
  { files := fun name => if name = "tmp/REMAP7.dat" then some content else none
    writable := fun _ => true }

/-- A file with one complete record followed by a single further integer. -/
def fileTruncated : FileData := "1 2 3 4 5".toList

/-- A file with one complete record followed by a token that is not an integer. -/
def fileGarbage : FileData := "1 2 3 4 x".toList

/-- The table as `load` leaves it after reading an empty file: the flag is set and
there is no entry, so it is not usable. -/
def tableLoadedEmpty : ReMapping := { bMapped := true, map := [] }

/-! ## Arithmetic helpers -/

theorem wrap32_add_wrap32 (x y : Int) : wrap32 (wrap32 x + y) = wrap32 (x + y) := by
  unfold wrap32
  omega

theorem wrap32_of_isInt32 (z : Int) (h : isInt32 z) : wrap32 z = z := by
  unfold isInt32 at h
  unfold wrap32
  omega

theorem exactOps_scaled_zero : exactOps.scaled 0 = 0 := by
  simp only [exactOps]
  norm_num

/-- For every variant other than the unfixed forward one, `hashcode` is the closed
form: each field is folded in once. -/
theorem hashcode_eq_closedForm_of_ne_unfixedForward {D : Type} (F : DoubleOps D)
    (p : CorrectingParams D)
    (h : p.ctype ≠ .LONG_LAT_MAPPING_CAM_LENS_MOD_UNFIXED_FORWARD) :
    p.hashcode F = hashClosedForm F p := by
  simp only [CorrectingParams.hashcode, hashClosedForm, if_neg h, addAssign,
    wrap32_add_wrap32, add_zero]

/-! ## The descriptor: equality and hash -/

/-- C1 (defect in the code): the default descriptor `CorrectingParams()` satisfies the
intended identity contract with itself (all compared fields equal, `ctype` not an
unfixed variant, so `w` is not to be compared), yet `operator ==` returns `false` on
it, whatever `w` holds: the last clause of `operator ==` requires `ctype` to be one of
the two unfixed variants instead of comparing `w` only for them. -/
theorem operatorEq_default_self {D : Type} (F : DoubleOps D) (w0 : Point2d D) :
    intendedEq F (CorrectingParams.default w0) (CorrectingParams.default w0) = true ∧
    (CorrectingParams.default w0).operatorEq F (CorrectingParams.default w0) = false := by
  constructor
  · simp [intendedEq, CorrectingParams.default, isUnfixed]
  · simp [CorrectingParams.operatorEq, CorrectingParams.default, isUnfixed]

/-- C2: two descriptors that agree on `ctype`, `centerOfCircle`, `radiusOfCircle`,
`dmType` and `use_reMap`, and that agree on `w` (same value, or equal under
`operator ==`) whenever `ctype` is one of the two unfixed variants, have the same
`hashcode`.  Moreover, for a `ctype` other than the unfixed forward variant the hash
is unchanged by any change of `w` and `use_reMap`, and for every `ctype` it is
unchanged by a change of `use_reMap`. -/
theorem hashcode_respects_identity {D : Type} (F : DoubleOps D) (a b : CorrectingParams D)
    (hctype : a.ctype = b.ctype) (hcenter : a.centerOfCircle = b.centerOfCircle)
    (hradius : a.radiusOfCircle = b.radiusOfCircle) (hdm : a.dmType = b.dmType)
    (_huse : a.use_reMap = b.use_reMap)
    (hw : isUnfixed a.ctype = true → a.w = b.w ∨ Point2d.eq F a.w b.w = true) :
    a.hashcode F = b.hashcode F ∧
    (∀ (w1 : Point2d D) (u : Bool),
      a.ctype ≠ .LONG_LAT_MAPPING_CAM_LENS_MOD_UNFIXED_FORWARD →
      CorrectingParams.hashcode F { a with w := w1, use_reMap := u } = a.hashcode F) ∧
    (∀ u : Bool, CorrectingParams.hashcode F { a with use_reMap := u } = a.hashcode F) := by
  refine ⟨?_, ?_, ?_⟩
  · by_cases hUF : a.ctype = .LONG_LAT_MAPPING_CAM_LENS_MOD_UNFIXED_FORWARD
    · have hsc : F.scaled a.w.x = F.scaled b.w.x ∧ F.scaled a.w.y = F.scaled b.w.y := by
        have hun : isUnfixed a.ctype = true := by simp [isUnfixed, hUF]
        rcases hw hun with h | h
        · rw [h]; exact ⟨rfl, rfl⟩
        · simp only [Point2d.eq, Bool.and_eq_true] at h
          exact ⟨F.scaled_of_eq _ _ h.1, F.scaled_of_eq _ _ h.2⟩
      simp only [CorrectingParams.hashcode, ← hctype, ← hcenter, ← hradius, ← hdm,
        hsc.1, hsc.2]
    · have hUFb : b.ctype ≠ .LONG_LAT_MAPPING_CAM_LENS_MOD_UNFIXED_FORWARD := by
        rw [← hctype]; exact hUF
      simp only [CorrectingParams.hashcode, if_neg hUF, if_neg hUFb, ← hctype, ← hcenter,
        ← hradius, ← hdm]
  · intro w1 u hUF
    simp only [CorrectingParams.hashcode, if_neg hUF]
  · intro u
    simp only [CorrectingParams.hashcode]

/-- Witness for C2: `paramsBasic` and `paramsBasicOtherW` differ in `w` only and use a
variant that is not unfixed; they have the same hash. -/
theorem hashcode_respects_identity_witness :
    paramsBasic.hashcode exactOps = paramsBasicOtherW.hashcode exactOps :=
  (hashcode_respects_identity exactOps paramsBasic paramsBasicOtherW rfl rfl rfl rfl rfl
    (fun h => absurd h (by decide))).1

/-- C9 (defect in the code): for the unfixed forward variant with all fields zero the
hash is not the closed form.  The closed form is `6 + 6 * 0x9e3779b9` reduced to an
`int`, that is `-1253254564`; `hashcode` returns `-865977601`, because the statement
`ret += ret += ...;` adds the running sum to itself after folding in `w.x`. -/
theorem hashcode_unfixedForward_not_closedForm :
    hashClosedForm exactOps paramsUnfixedForward = -1253254564 ∧
    paramsUnfixedForward.hashcode exactOps = -865977601 ∧
    paramsUnfixedForward.hashcode exactOps ≠ hashClosedForm exactOps paramsUnfixedForward := by
  have h1 : hashClosedForm exactOps paramsUnfixedForward = -1253254564 := by
    simp only [hashClosedForm, paramsUnfixedForward, paramsBasic, CorrectingParams.default,
      exactOps_scaled_zero]
    decide
  have h2 : paramsUnfixedForward.hashcode exactOps = -865977601 := by
    simp only [CorrectingParams.hashcode, paramsUnfixedForward, paramsBasic,
      CorrectingParams.default, exactOps_scaled_zero]
    decide
  refine ⟨h1, h2, ?_⟩
  rw [h1, h2]
  decide

/-! ## The table: `set`, `get` -/

theorem Table.find_assign_self (t : Table) (k v : Coord) :
    Table.find (Table.assign t k v) k = some v := by
  induction t with
  | nil => simp [Table.assign, Table.find]
  | cons e rest ih =>
    obtain ⟨k0, v0⟩ := e
    by_cases h : k0 = k
    · simp [Table.assign, Table.find, h]
    · simp [Table.assign, Table.find, h, ih]

theorem Table.find_assign_ne (t : Table) (k v k1 : Coord) (h : k1 ≠ k) :
    Table.find (Table.assign t k v) k1 = Table.find t k1 := by
  induction t with
  | nil =>
    have h2 : ¬ k = k1 := fun e => h e.symm
    simp [Table.assign, Table.find, h2]
  | cons e rest ih =>
    obtain ⟨k0, v0⟩ := e
    by_cases h0 : k0 = k
    · have h2 : ¬ k = k1 := fun e => h e.symm
      simp [Table.assign, Table.find, h0, h2]
    · by_cases h1 : k0 = k1
      · subst h1
        simp [Table.assign, Table.find, h]
      · simp [Table.assign, Table.find, h0, h1, ih]

theorem Table.length_assign (t : Table) (k v : Coord) :
    t.length ≤ (Table.assign t k v).length ∧ (Table.assign t k v).length ≤ t.length + 1 ∧
      0 < (Table.assign t k v).length := by
  induction t with
  | nil => simp [Table.assign]
  | cons e rest ih =>
    obtain ⟨k0, v0⟩ := e
    by_cases h0 : k0 = k
    · simp [Table.assign, h0]
    · simp only [Table.assign, h0, if_false, List.length_cons]
      omega

theorem ReMapping.get_fst (m : ReMapping) (d : Coord) :
    (m.get d).1 = (m.map.find d).getD (0, 0) := by
  unfold ReMapping.get
  cases h : m.map.find d <;> simp

/-- C8: for every table state and all coordinates `s` and `d`, after `set(s, d)` the
table is usable, `get(d)` returns `s` (whatever was stored for `d` before), the number
of entries has not decreased and has grown by at most one, and for every other key
`d1 ≠ d` that was present `get(d1)` returns the same value as before the call. -/
theorem set_then_get (m : ReMapping) (s d : Coord) :
    (m.set s d).isMapped = true ∧
    ((m.set s d).get d).1 = s ∧
    m.map.length ≤ (m.set s d).map.length ∧
    (m.set s d).map.length ≤ m.map.length + 1 ∧
    (∀ d1 : Coord, d1 ≠ d → d1 ∈ m.map.keys →
      ((m.set s d).get d1).1 = (m.get d1).1) := by
  have hlen := Table.length_assign m.map d s
  refine ⟨?_, ?_, hlen.1, hlen.2.1, ?_⟩
  · have hpos : (Table.assign m.map d s).length ≠ 0 := by omega
    simp [ReMapping.isMapped, ReMapping.set, hpos]
  · rw [ReMapping.get_fst]
    simp [ReMapping.set, Table.find_assign_self]
  · intro d1 hne _
    rw [ReMapping.get_fst, ReMapping.get_fst]
    simp [ReMapping.set, Table.find_assign_ne _ _ _ _ hne]

/-- Witness for C8: on a fresh table `set` makes the table usable and `get` returns the
recorded value; overwriting the key `(0, 0)` of `tableTwo` keeps the entry of the key
`(0, 1)`. -/
theorem set_then_get_witness :
    (ReMapping.new.set (3, 4) (1, 2)).isMapped = true ∧
    ((ReMapping.new.set (3, 4) (1, 2)).get (1, 2)).1 = (3, 4) ∧
    ((tableTwo.set (5, 6) (0, 0)).get (0, 0)).1 = (5, 6) ∧
    ((tableTwo.set (5, 6) (0, 0)).get (0, 1)).1 = (tableTwo.get (0, 1)).1 :=
  have h0 := set_then_get ReMapping.new (3, 4) (1, 2)
  have h := set_then_get tableTwo (5, 6) (0, 0)
  ⟨h0.1, h0.2.1, h.2.1, h.2.2.2.2 (0, 1) (by decide) (by decide)⟩

/-! ## `load`: the early exits -/

/-- C7: (1) on a usable table `load` returns `true` and leaves the map and the flag as
they are, whatever the file system holds; (2) on a table that is not usable, when the
file named by the hash cannot be opened, `load` returns `false`, leaves the map and
the flag as they are, and the table is still not usable. -/
theorem load_noop_or_miss (TEMP_PATH : String) (fs : FileSystem) (fuel : Nat)
    (init : Locals) (m : ReMapping) (cpHash : Int) :
    (m.isMapped = true →
      m.load TEMP_PATH fs fuel init cpHash = some (true, m)) ∧
    (m.isMapped = false → fs.files (getPersistFilename TEMP_PATH cpHash) = none →
      ∃ m1, m.load TEMP_PATH fs fuel init cpHash = some (false, m1) ∧
        m1.map = m.map ∧ m1.bMapped = m.bMapped ∧ m1.isMapped = false) := by
  constructor
  · intro h
    simp [ReMapping.load, h]
  · intro h hfile
    exact ⟨m, by simp [ReMapping.load, h, hfile], rfl, rfl, h⟩

/-- Witness for C7: a fresh table and a file system without any file. -/
theorem load_noop_or_miss_witness :
    ReMapping.new.isMapped = false ∧
    ∃ m1, ReMapping.new.load "tmp/" emptyFS 1 ⟨0, 0, 0, 0⟩ 7 = some (false, m1) ∧
      m1.map = ReMapping.new.map ∧ m1.bMapped = ReMapping.new.bMapped ∧
      m1.isMapped = false :=
  ⟨rfl, (load_noop_or_miss "tmp/" emptyFS 1 ⟨0, 0, 0, 0⟩ ReMapping.new 7).2 rfl rfl⟩

/-! ## `reMap` -/

theorem Mat.index_lt (m : Mat) (hm : m.WellFormed) (i j : Int) (h : m.inside i j = true) :
    m.index i j < m.data.length := by
  simp only [Mat.inside, Bool.and_eq_true, decide_eq_true_eq] at h
  obtain ⟨⟨⟨hi0, hi⟩, hj0⟩, hj⟩ := h
  have hi1 : i.toNat < m.rows := by omega
  have hj1 : j.toNat < m.cols := by omega
  have hmul : (i.toNat + 1) * m.cols ≤ m.rows * m.cols := Nat.mul_le_mul_right _ hi1
  rw [hm]
  unfold Mat.index
  rw [Nat.add_mul] at hmul
  omega

theorem Mat.index_inj (m : Mat) (i j i1 j1 : Int) (h : m.inside i j = true)
    (h1 : m.inside i1 j1 = true) (hidx : m.index i j = m.index i1 j1) :
    i = i1 ∧ j = j1 := by
  simp only [Mat.inside, Bool.and_eq_true, decide_eq_true_eq] at h h1
  obtain ⟨⟨⟨hi0, _⟩, hj0⟩, hj⟩ := h
  obtain ⟨⟨⟨hi0a, _⟩, hj0a⟩, hja⟩ := h1
  have hj1 : j.toNat < m.cols := by omega
  have hj1a : j1.toNat < m.cols := by omega
  unfold Mat.index at hidx
  have hrow : i.toNat = i1.toNat := by
    rcases Nat.lt_trichotomy i.toNat i1.toNat with hlt | heq | hgt
    · have hmul : (i.toNat + 1) * m.cols ≤ i1.toNat * m.cols := Nat.mul_le_mul_right _ hlt
      rw [Nat.add_mul] at hmul
      omega
    · exact heq
    · have hmul : (i1.toNat + 1) * m.cols ≤ i.toNat * m.cols := Nat.mul_le_mul_right _ hgt
      rw [Nat.add_mul] at hmul
      omega
  rw [hrow] at hidx
  have hcol : j.toNat = j1.toNat := by omega
  constructor <;> omega

theorem Mat.at_isSome (m : Mat) (hm : m.WellFormed) (i j : Int) (h : m.inside i j = true) :
    ∃ px, m.at i j = some px := by
  have hlt := Mat.index_lt m hm i j h
  exact ⟨m.data[m.index i j], by simp [Mat.at, h, List.getElem?_eq_getElem hlt]⟩

theorem Mat.setAt_spec (m : Mat) (hm : m.WellFormed) (i j : Int) (v : Vec3b)
    (h : m.inside i j = true) :
    ∃ m1, m.setAt i j v = some m1 ∧ m1.rows = m.rows ∧ m1.cols = m.cols ∧
      m1.WellFormed ∧ m1.at i j = some v ∧
      (∀ i1 j1, (i1, j1) ≠ (i, j) → m1.at i1 j1 = m.at i1 j1) := by
  have hlt := Mat.index_lt m hm i j h
  refine ⟨{ m with data := m.data.set (m.index i j) v }, ?_, rfl, rfl, ?_, ?_, ?_⟩
  · simp [Mat.setAt, h, hlt]
  · simpa [Mat.WellFormed] using hm
  · have hin : Mat.inside { m with data := m.data.set (m.index i j) v } i j = true := h
    have hidx : Mat.index { m with data := m.data.set (m.index i j) v } i j = m.index i j :=
      rfl
    simp only [Mat.at, hin, if_true, hidx]
    exact List.getElem?_set_self hlt
  · intro i1 j1 hne
    by_cases hin1 : m.inside i1 j1 = true
    · have hin : Mat.inside { m with data := m.data.set (m.index i j) v } i1 j1 = true := hin1
      have hidx : Mat.index { m with data := m.data.set (m.index i j) v } i1 j1
          = m.index i1 j1 := rfl
      have hneq : m.index i j ≠ m.index i1 j1 := by
        intro e
        have := Mat.index_inj m i j i1 j1 h hin1 e
        exact hne (by rw [this.1, this.2])
      simp only [Mat.at, hin, hin1, if_true, hidx]
      exact List.getElem?_set_ne hneq
    · have hin : ¬ Mat.inside { m with data := m.data.set (m.index i j) v } i1 j1 = true :=
        hin1
      simp only [Mat.at, hin, hin1, if_false]
      rfl

/-- The loop of `reMap`: when every recorded position is inside its image and the keys
are distinct, the loop ends with each recorded destination pixel holding its source
pixel and every other destination pixel untouched. -/
theorem reMapLoop_spec (src : Mat) (hsrc : src.WellFormed) :
    ∀ (t : Table) (dst : Mat), dst.WellFormed → t.keys.Nodup →
      (∀ e ∈ t, dst.inside e.1.1 e.1.2 = true ∧ src.inside e.2.1 e.2.2 = true) →
      ∃ dst1, reMapLoop t src dst = some dst1 ∧ dst1.rows = dst.rows ∧
        dst1.cols = dst.cols ∧ dst1.WellFormed ∧
        (∀ e ∈ t, ∃ px, src.at e.2.1 e.2.2 = some px ∧ dst1.at e.1.1 e.1.2 = some px) ∧
        (∀ i j, (i, j) ∉ t.keys → dst1.at i j = dst.at i j) := by
  intro t
  induction t with
  | nil =>
    intro dst hdst _ _
    exact ⟨dst, rfl, rfl, rfl, hdst, by simp, by simp⟩
  | cons e rest ih =>
    intro dst hdst hnd hin
    obtain ⟨⟨i_dst, j_dst⟩, ⟨i, j⟩⟩ := e
    have hhead := hin ((i_dst, j_dst), (i, j)) (List.mem_cons_self _ _)
    simp only at hhead
    obtain ⟨px, hpx⟩ := Mat.at_isSome src hsrc i j hhead.2
    obtain ⟨d1, hset, hrows, hcols, hwf, hat, hother⟩ :=
      Mat.setAt_spec dst hdst i_dst j_dst px hhead.1
    simp only [Table.keys, List.map_cons, List.nodup_cons] at hnd
    have hin1 : ∀ e ∈ rest, d1.inside e.1.1 e.1.2 = true ∧ src.inside e.2.1 e.2.2 = true := by
      intro e he
      have := hin e (List.mem_cons_of_mem _ he)
      simpa [Mat.inside, hrows, hcols] using this
    obtain ⟨d2, hloop, hrows2, hcols2, hwf2, hent, hkeep⟩ := ih d1 hwf hnd.2 hin1
    refine ⟨d2, ?_, by rw [hrows2, hrows], by rw [hcols2, hcols], hwf2, ?_, ?_⟩
    · simp [reMapLoop, hpx, hset, hloop]
    · intro e he
      rcases List.mem_cons.mp he with rfl | he
      · refine ⟨px, hpx, ?_⟩
        rw [hkeep i_dst j_dst hnd.1]
        exact hat
      · exact hent e he
    · intro i1 j1 hnot
      simp only [Table.keys, List.map_cons, List.mem_cons, not_or] at hnot
      rw [hkeep i1 j1 hnot.2]
      exact hother i1 j1 hnot.1

/-- C4: `reMap` returns `true` exactly when `isMapped()` holds before the call.  When
it returns `false` the destination image is unchanged.  When it returns `true`, all
recorded positions being inside both images, each recorded destination pixel equals
the source pixel recorded for it, every destination pixel whose position is not a key
keeps its value, the image keeps its size, and the table is unchanged. -/
theorem reMap_postcondition (m : ReMapping) (src dst : Mat) (hkeys : m.map.keys.Nodup)
    (hsrc : src.WellFormed) (hdst : dst.WellFormed) :
    (m.isMapped = false → m.reMap src dst = some (false, dst, m)) ∧
    (m.isMapped = true →
      (∀ e ∈ m.map, dst.inside e.1.1 e.1.2 = true ∧ src.inside e.2.1 e.2.2 = true) →
      ∃ dst1, m.reMap src dst = some (true, dst1, m) ∧
        dst1.rows = dst.rows ∧ dst1.cols = dst.cols ∧
        (∀ e ∈ m.map, ∃ px, src.at e.2.1 e.2.2 = some px ∧ dst1.at e.1.1 e.1.2 = some px) ∧
        (∀ i j, (i, j) ∉ m.map.keys → dst1.at i j = dst.at i j)) := by
  constructor
  · intro h
    simp [ReMapping.reMap, h]
  · intro h hin
    obtain ⟨d1, hloop, hrows, hcols, _, hent, hkeep⟩ :=
      reMapLoop_spec src hsrc m.map dst hdst hkeys hin
    exact ⟨d1, by simp [ReMapping.reMap, h, hloop], hrows, hcols, hent, hkeep⟩

/-- Witness for C4: `tableTwo` applied to the 2 by 2 images `imgSrc` and `imgDst`. -/
theorem reMap_postcondition_witness :
    ∃ dst1, tableTwo.reMap imgSrc imgDst = some (true, dst1, tableTwo) ∧
      dst1.rows = imgDst.rows ∧ dst1.cols = imgDst.cols ∧
      (∀ e ∈ tableTwo.map,
        ∃ px, imgSrc.at e.2.1 e.2.2 = some px ∧ dst1.at e.1.1 e.1.2 = some px) ∧
      (∀ i j, (i, j) ∉ tableTwo.map.keys → dst1.at i j = imgDst.at i j) :=
  (reMap_postcondition tableTwo imgSrc imgDst (by decide) rfl rfl).2
    (by decide) (by decide)

/-! ## `load`: the read loop -/

/-- A character that is neither white space, nor a sign, nor a digit is never consumed
by `fscanf`: the call returns 0 and leaves the stream and the variables as they were,
so the loop of `load` makes the same call again, without end. -/
theorem loadLoop_stuck (c : Char) (cs : FileData) (hsp : isSpace c = false)
    (hminus : c ≠ '-') (hplus : c ≠ '+') (hdig : isDigit c = false) :
    ∀ (fuel : Nat) (v : Locals) (t : Table), loadLoop fuel (c :: cs) v t = none := by
  have hscan : ∀ v, fscanf4 (c :: cs) v = (0, v, c :: cs) := by
    intro v
    simp [fscanf4, scanInt, skipSpaces, scanNumber, hsp, hminus, hplus, hdig]
  intro fuel
  induction fuel with
  | zero => intro v t; rfl
  | succ n ih =>
    intro v t
    simp only [loadLoop, hscan]
    have h0 : ¬ ((0 : Int) = EOF) := by decide
    rw [if_neg h0]
    exact ih _ _

/-- C5 (defect in the code): on the file `1 2 3 4 5` (one complete record and one
further integer) `load` on a fresh table ends with two entries, `(1,2) -> (3,4)` and
`(5,2) -> (3,4)`: `fscanf` returns 1, which is not `EOF`, so the loop body runs with
`a = 5` and the stale `b`, `c`, `d` of the previous record.  The leftover integer is
not dropped. -/
theorem load_truncated_record_adds_entry (init : Locals) :
    ReMapping.new.load "tmp/" (fsWith fileTruncated) 3 init 7 =
      some (true, { bMapped := true, map := [((1, 2), (3, 4)), ((5, 2), (3, 4))] }) := by
  rfl

/-- C6 (defect in the code): on the file `1 2 3 4 x` the read loop of `load` on a
fresh table never ends: whatever the number `fuel` of `fscanf` calls allowed, the
loop is still running.  After the first record every call of `fscanf` returns 0 at
the token `x`, which is not `EOF`, and consumes nothing. -/
theorem load_unparseable_token_never_ends (fuel : Nat) (init : Locals) :
    ReMapping.new.load "tmp/" (fsWith fileGarbage) fuel init 7 = none := by
  have hfile : (fsWith fileGarbage).files (getPersistFilename "tmp/" 7)
      = some fileGarbage := by rfl
  have hloop : loadLoop fuel fileGarbage init [] = none := by
    cases fuel with
    | zero => rfl
    | succ n =>
      cases n with
      | zero => rfl
      | succ k =>
        have hstep : loadLoop (k + 1 + 1) fileGarbage init []
            = loadLoop k ['x'] ⟨1, 2, 3, 4⟩
                (Table.assign [((1, 2), (3, 4))] (1, 2) (3, 4)) := by
          rfl
        rw [hstep]
        exact loadLoop_stuck 'x' [] (by decide) (by decide) (by decide) (by decide) _ _ _
  have hnot : ReMapping.new.isMapped = false := rfl
  simp only [ReMapping.load, hnot, hfile, hloop]
  rfl

/-! ## Printing and reading back one integer -/

theorem decDigit_spec (d : Nat) (hd : d < 10) :
    isDigit (decDigit d) = true ∧ (decDigit d).toNat - 48 = d := by
  interval_cases d <;> decide

theorem isDigit_not_space (c : Char) (h : isDigit c = true) :
    isSpace c = false ∧ c ≠ '-' ∧ c ≠ '+' := by
  refine ⟨?_, ?_, ?_⟩
  · simp only [isDigit, Bool.and_eq_true, decide_eq_true_eq] at h
    simp only [isSpace, Bool.or_eq_false_iff, Bool.and_eq_false_iff, decide_eq_false_iff_not]
    omega
  · rintro rfl
    revert h
    decide
  · rintro rfl
    revert h
    decide

theorem printNatAux_digits (fuel : Nat) :
    ∀ n, ∀ c ∈ printNatAux fuel n, isDigit c = true := by
  induction fuel with
  | zero =>
    intro n c hc
    simp only [printNatAux, List.mem_singleton] at hc
    rw [hc]
    exact (decDigit_spec (n % 10) (Nat.mod_lt _ (by decide))).1
  | succ k ih =>
    intro n c hc
    unfold printNatAux at hc
    split at hc
    · rename_i hlt
      simp only [List.mem_singleton] at hc
      rw [hc]
      exact (decDigit_spec n hlt).1
    · rcases List.mem_append.mp hc with h | h
      · exact ih _ c h
      · simp only [List.mem_singleton] at h
        rw [h]
        exact (decDigit_spec (n % 10) (Nat.mod_lt _ (by decide))).1

theorem printNatAux_ne_nil (fuel n : Nat) : printNatAux fuel n ≠ [] := by
  cases fuel with
  | zero => simp [printNatAux]
  | succ k =>
    unfold printNatAux
    split <;> simp

theorem digitsValue_printNatAux (fuel : Nat) :
    ∀ n, n ≤ fuel → digitsValue (printNatAux fuel n) 0 = n := by
  induction fuel with
  | zero =>
    intro n hn
    have h0 : n = 0 := by omega
    subst h0
    decide
  | succ k ih =>
    intro n hn
    unfold printNatAux
    split
    · rename_i hlt
      simp only [digitsValue, List.foldl_cons, List.foldl_nil, Nat.zero_mul, Nat.zero_add]
      exact (decDigit_spec n hlt).2
    · rename_i hge
      have hdiv : n / 10 ≤ k := by omega
      have hrec := ih (n / 10) hdiv
      simp only [digitsValue, List.foldl_append, List.foldl_cons, List.foldl_nil] at hrec ⊢
      rw [hrec, (decDigit_spec (n % 10) (Nat.mod_lt _ (by decide))).2]
      omega

theorem scanDigits_append (ds : List Char) (hds : ∀ c ∈ ds, isDigit c = true) :
    ∀ (rest : FileData) (acc : Nat),
      scanDigits (ds ++ rest) acc = scanDigits rest (digitsValue ds acc) := by
  induction ds with
  | nil => intro rest acc; rfl
  | cons c cs ih =>
    intro rest acc
    have hc : isDigit c = true := hds c (List.mem_cons_self _ _)
    have hcs : ∀ x ∈ cs, isDigit x = true := fun x hx => hds x (List.mem_cons_of_mem _ hx)
    have hstep : scanDigits (c :: cs ++ rest) acc
        = scanDigits (cs ++ rest) (acc * 10 + (c.toNat - 48)) := by
      simp only [List.cons_append, scanDigits, hc, if_true]
      rfl
    rw [hstep, ih hcs]
    rfl

theorem scanNumber_digits (neg : Bool) (ds : List Char) (hne : ds ≠ [])
    (hds : ∀ c ∈ ds, isDigit c = true) (rest : FileData) :
    scanNumber neg (ds ++ ' ' :: rest) =
      .value (wrap32 (if neg then - (digitsValue ds 0 : Int) else (digitsValue ds 0 : Int)))
        (' ' :: rest) := by
  have hscan : scanDigits (ds ++ ' ' :: rest) 0 = (digitsValue ds 0, ' ' :: rest) := by
    rw [scanDigits_append ds hds]
    have hsp : isDigit ' ' = false := by decide
    simp [scanDigits, hsp]
  cases ds with
  | nil => exact absurd rfl hne
  | cons d tail =>
    have hd : isDigit d = true := hds d (List.mem_cons_self _ _)
    simp only [List.cons_append] at hscan ⊢
    simp only [scanNumber, hd, if_true, hscan]

/-- Reading back with `%d` what `%d` printed: the printed integer followed by a space
is converted to the same integer (reduced to 32 bits), leaving the stream at the
space. -/
theorem scanInt_printInt (z : Int) (rest : FileData) :
    scanInt (printInt z ++ ' ' :: rest) = .value (wrap32 z) (' ' :: rest) := by
  by_cases hz : z < 0
  · have hdigits := printNatAux_digits (-z).toNat (-z).toNat
    have hne := printNatAux_ne_nil (-z).toNat (-z).toNat
    have hval := digitsValue_printNatAux (-z).toNat (-z).toNat (Nat.le_refl _)
    have hstep : scanInt (printInt z ++ ' ' :: rest)
        = scanNumber true (printNat (-z).toNat ++ ' ' :: rest) := by
      have hsp : isSpace '-' = false := by decide
      simp [printInt, hz, scanInt, skipSpaces, hsp]
    rw [hstep, printNat, scanNumber_digits true _ hne hdigits, hval]
    have hcast : ((-z).toNat : Int) = -z := Int.toNat_of_nonneg (by omega)
    simp only [if_true, hcast, neg_neg]
  · have hdigits := printNatAux_digits z.toNat z.toNat
    have hne := printNatAux_ne_nil z.toNat z.toNat
    have hval := digitsValue_printNatAux z.toNat z.toNat (Nat.le_refl _)
    have hcast : (z.toNat : Int) = z := Int.toNat_of_nonneg (by omega)
    have hstep : scanInt (printInt z ++ ' ' :: rest)
        = scanNumber false (printNat z.toNat ++ ' ' :: rest) := by
      unfold printNat
      cases hp : printNatAux z.toNat z.toNat with
      | nil => exact absurd hp hne
      | cons d tail =>
        have hd : isDigit d = true := hdigits d (by rw [hp]; exact List.mem_cons_self _ _)
        obtain ⟨hsp, hminus, hplus⟩ := isDigit_not_space d hd
        simp [printInt, hz, printNat, hp, scanInt, skipSpaces, hsp, hminus, hplus]
    rw [hstep, printNat, scanNumber_digits false _ hne hdigits, hval]
    simp [hcast]

theorem scanInt_space (s : FileData) : scanInt (' ' :: s) = scanInt s := by
  have hsp : isSpace ' ' = true := by decide
  simp only [scanInt, skipSpaces, hsp, if_true]

theorem fscanf4_space (s : FileData) (v : Locals) : fscanf4 (' ' :: s) v = fscanf4 s v := by
  simp only [fscanf4, scanInt_space]

/-- One call of `fscanf` on the text of one record reads its four integers and leaves
the stream at the space that ends the record. -/
theorem fscanf4_printRecord (e : Coord × Coord) (rest : FileData) (v : Locals) :
    fscanf4 (printRecord e ++ rest) v =
      (4, ⟨wrap32 e.1.1, wrap32 e.1.2, wrap32 e.2.1, wrap32 e.2.2⟩, ' ' :: rest) := by
  simp only [printRecord, List.append_assoc, List.cons_append, List.nil_append, fscanf4,
    scanInt_printInt, scanInt_space]

/-! ## Persistence round trip -/

theorem Table.assign_of_not_mem (t : Table) (k v : Coord) (h : k ∉ t.keys) :
    t.assign k v = t ++ [(k, v)] := by
  induction t with
  | nil => rfl
  | cons e rest ih =>
    obtain ⟨k0, v0⟩ := e
    simp only [Table.keys, List.map_cons, List.mem_cons, not_or] at h
    have h0 : ¬ k0 = k := fun e => h.1 e.symm
    simp only [Table.assign, h0, if_false, List.cons_append]
    rw [ih h.2]

theorem assignAll_of_nodup (t : Table) :
    ∀ acc : Table, (acc.keys ++ t.keys).Nodup → assignAll acc t = acc ++ t := by
  induction t with
  | nil => intro acc _; simp [assignAll]
  | cons e rest ih =>
    intro acc hnd
    obtain ⟨k0, v0⟩ := e
    have hnot : k0 ∉ acc.keys := by
      intro hmem
      have := (List.nodup_append.mp hnd).2.2
      exact this hmem (by simp [Table.keys])
    have hnd1 : ((acc ++ [(k0, v0)]).keys ++ Table.keys rest).Nodup := by
      simpa [Table.keys, List.append_assoc] using hnd
    have hstep : assignAll acc ((k0, v0) :: rest) = assignAll (acc.assign k0 v0) rest := rfl
    rw [hstep, Table.assign_of_not_mem acc k0 v0 hnot, ih _ hnd1]
    simp

theorem Table.find_eq_some_iff (t : Table) (hnd : t.keys.Nodup) (k v : Coord) :
    t.find k = some v ↔ (k, v) ∈ t := by
  induction t with
  | nil => simp [Table.find]
  | cons e rest ih =>
    obtain ⟨k0, v0⟩ := e
    simp only [Table.keys, List.map_cons, List.nodup_cons] at hnd
    by_cases h0 : k0 = k
    · subst h0
      have hnot : (k0, v) ∉ rest := by
        intro hmem
        exact hnd.1 (List.mem_map.mpr ⟨(k0, v), hmem, rfl⟩)
      simp only [Table.find, if_true, Option.some.injEq, List.mem_cons, Prod.mk.injEq,
        true_and, hnot, or_false]
      exact eq_comm
    · have hne : ¬ k = k0 := fun e => h0 e.symm
      simp only [Table.find, h0, if_false, List.mem_cons, Prod.mk.injEq, hne, false_and,
        false_or]
      exact ih hnd.2

theorem Table.find_perm (t order : Table) (hnd : t.keys.Nodup) (hperm : order.Perm t)
    (k : Coord) : order.find k = t.find k := by
  have hnd1 : order.keys.Nodup := (List.Perm.nodup_iff (hperm.map Prod.fst)).mpr hnd
  apply Option.ext
  intro v
  simp only [Option.mem_def]
  rw [Table.find_eq_some_iff order hnd1, Table.find_eq_some_iff t hnd]
  exact hperm.mem_iff

theorem loadLoop_space (fuel : Nat) (s : FileData) (v : Locals) (t : Table) :
    loadLoop fuel (' ' :: s) v t = loadLoop fuel s v t := by
  cases fuel with
  | zero => rfl
  | succ n => simp only [loadLoop, fscanf4_space]

/-- The loop of `load` on the text written by `persist` ends, after one `fscanf` call
per record and a last one that meets the end of the file, and has made the
assignment of every record in turn. -/
theorem loadLoop_persistText (t : Table) :
    t.InRange → ∀ (fuel : Nat) (v : Locals) (acc : Table), t.length < fuel →
      loadLoop fuel (persistText t) v acc = some (assignAll acc t) := by
  induction t with
  | nil =>
    intro _ fuel v acc hfuel
    cases fuel with
    | zero => omega
    | succ n => rfl
  | cons e rest ih =>
    intro hr fuel v acc hfuel
    cases fuel with
    | zero => omega
    | succ n =>
      have he := hr e (List.mem_cons_self _ _)
      have hrest : Table.InRange rest := fun x hx => hr x (List.mem_cons_of_mem _ hx)
      have hlen : rest.length < n := by
        simp only [List.length_cons] at hfuel
        omega
      have h4 : ¬ ((4 : Int) = EOF) := by decide
      simp only [persistText, loadLoop, fscanf4_printRecord, if_neg h4,
        wrap32_of_isInt32 _ he.1, wrap32_of_isInt32 _ he.2.1, wrap32_of_isInt32 _ he.2.2.1,
        wrap32_of_isInt32 _ he.2.2.2]
      rw [loadLoop_space, ih hrest n _ _ hlen]
      rfl

/-- C3: for a usable table whose keys are distinct and whose coordinates are 32-bit
integers (negative ones included), whatever the order `order` in which `persist`
visits the entries and whatever hash is used: when the file can be written,
`persist`, then `clear()`, then `load` with the same hash returns `true`, and the
loaded table has exactly the entries of the original one (the same keys, the same
value for every key) and is usable again.  The read loop ends within one `fscanf`
call per entry plus one. -/
theorem persist_clear_load_roundtrip (TEMP_PATH : String) (fs : FileSystem) (m : ReMapping)
    (order : Table) (cpHash : Int) (init : Locals) (fuel : Nat)
    (husable : m.isMapped = true) (hkeys : m.map.keys.Nodup) (hrange : m.map.InRange)
    (horder : order.Perm m.map)
    (hwritable : fs.writable (getPersistFilename TEMP_PATH cpHash) = true)
    (hfuel : m.map.length < fuel) :
    ∃ fs1 m1,
      ReMapping.persist TEMP_PATH fs { m with map := order } cpHash = some fs1 ∧
      ReMapping.load TEMP_PATH fs1 fuel init (ReMapping.clear { m with map := order }) cpHash
        = some (true, m1) ∧
      m1.map.Perm m.map ∧
      (∀ k, m1.map.find k = m.map.find k) ∧
      m1.isMapped = true := by
  have hlen : order.length = m.map.length := horder.length_eq
  have hb : m.bMapped = true ∧ m.map.length ≠ 0 := by
    simpa [ReMapping.isMapped] using husable
  have husable1 : ReMapping.isMapped { m with map := order } = true := by
    simp [ReMapping.isMapped, hb.1, hlen, hb.2]
  have hnd1 : order.keys.Nodup := (List.Perm.nodup_iff (horder.map Prod.fst)).mpr hkeys
  have hrange1 : order.InRange := fun e he => hrange e (horder.mem_iff.mp he)
  have hloop : loadLoop fuel (persistText order) init [] = some order := by
    rw [loadLoop_persistText order hrange1 fuel init [] (by omega),
      assignAll_of_nodup order [] (by simpa [Table.keys] using hnd1)]
    rfl
  refine ⟨{ fs with
      files := fun name =>
        if name = getPersistFilename TEMP_PATH cpHash then some (persistText order)
        else fs.files name }, { bMapped := true, map := order }, ?_, ?_, horder, ?_, ?_⟩
  · simp only [ReMapping.persist, husable1, hwritable, Bool.not_true, Bool.false_eq_true,
      if_false]
  · simp [ReMapping.load, ReMapping.clear, ReMapping.isMapped, hloop]
  · intro k
    exact Table.find_perm m.map order hkeys horder k
  · simp [ReMapping.isMapped, hlen, hb.2]

/-- Witness for C3: `tableNeg`, visited by `persist` in the reverse order, written under
the hash `-1` and read back. -/
theorem persist_clear_load_roundtrip_witness :
    ∃ fs1 m1,
      ReMapping.persist "tmp/" emptyFS { tableNeg with map := tableNeg.map.reverse } (-1)
        = some fs1 ∧
      ReMapping.load "tmp/" fs1 3 ⟨0, 0, 0, 0⟩
        (ReMapping.clear { tableNeg with map := tableNeg.map.reverse }) (-1) = some (true, m1) ∧
      m1.map.Perm tableNeg.map ∧
      (∀ k, m1.map.find k = tableNeg.map.find k) ∧
      m1.isMapped = true :=
  persist_clear_load_roundtrip "tmp/" emptyFS tableNeg tableNeg.map.reverse (-1) ⟨0, 0, 0, 0⟩ 3
    (by decide) (by decide) (by decide) (List.reverse_perm _) rfl (by decide)

/-! ## `get`: the effect on the table -/

/-- For a key that is present, `get` returns its value and leaves the table as it
was. -/
theorem ReMapping.get_present (m : ReMapping) (d v : Coord) (h : m.map.find d = some v) :
    m.get d = (v, m) := by
  simp [ReMapping.get, h]

/-- For a key that is absent, `get` returns `(0, 0)` and the table after the call
holds the new entry `d -> (0, 0)`; the flag is unchanged. -/
theorem ReMapping.get_absent (m : ReMapping) (d : Coord) (h : m.map.find d = none) :
    (m.get d).1 = (0, 0) ∧ (m.get d).2.map = m.map ++ [(d, (0, 0))] ∧
      (m.get d).2.bMapped = m.bMapped := by
  have hnot : d ∉ m.map.keys := by
    intro hmem
    obtain ⟨e, he, hk⟩ := List.mem_map.mp hmem
    have hfind : ∀ t : Table, e ∈ t → Table.find t d ≠ none := by
      intro t
      induction t with
      | nil => intro hin; cases hin
      | cons x rest ih =>
        intro hin
        obtain ⟨k0, v0⟩ := x
        by_cases h0 : k0 = d
        · simp [Table.find, h0]
        · rcases List.mem_cons.mp hin with hx | hx
          · exact absurd (by rw [← hk, hx]) h0
          · simpa [Table.find, h0] using ih hx
    exact hfind m.map he h
  have hget : m.get d = ((0, 0), { m with map := m.map.assign d (0, 0) }) := by
    simp only [ReMapping.get, h]
  rw [hget]
  exact ⟨rfl, Table.assign_of_not_mem m.map d (0, 0) hnot, rfl⟩

/-- C11 (defect in the code): `get` on a key that was never recorded changes the
table.  On the usable table `tableTwo`, whose keys are `(0,0)` and `(0,1)`, the call
`get((5,5))` returns `(0,0)` and leaves a third entry `(5,5) -> (0,0)`, which a later
`persist` writes to the file as the record `5 5 0 0`.  On the table that `load`
leaves after reading an empty file (flag set, no entry, not usable) the call
`get((0,0))` makes `isMapped()` true.  The member returns `map[dstPos]`, and
`operator[]` inserts a value-initialised entry for an absent key. -/
theorem get_absent_key_inserts (init : Locals) :
    tableTwo.isMapped = true ∧
    tableTwo.map.find (5, 5) = none ∧
    tableTwo.get (5, 5) =
      ((0, 0),
        { bMapped := true, map := [((0, 0), (1, 1)), ((0, 1), (1, 0)), ((5, 5), (0, 0))] }) ∧
    persistText tableTwo.map = "0 0 1 1 0 1 1 0 ".toList ∧
    persistText (tableTwo.get (5, 5)).2.map = "0 0 1 1 0 1 1 0 5 5 0 0 ".toList ∧
    ReMapping.new.load "tmp/" (fsWith []) 1 init 7 = some (true, tableLoadedEmpty) ∧
    tableLoadedEmpty.isMapped = false ∧
    (tableLoadedEmpty.get (0, 0)).2.isMapped = true := by
  refine ⟨by decide, by decide, by decide, by decide, by decide, rfl, by decide, by decide⟩

end Fisheye
